import Mathlib

/-!
Verification of the balena settings client (src/lib/settings.ts) against its
specification. Configuration mappings are modelled as association lists in
JS-object insertion order; the memoized settings computation is modelled as an
explicit cache-state machine; the file system and the YAML parser, which are
external collaborators, are parameters of the reader.
-/

set_option autoImplicit false

namespace Balena

/-- A flat configuration mapping, as produced by one settings source. Models a
plain JS object with string keys and string values (matching the declared
return type of getSettings in src/lib/settings.ts); entries are kept in
object insertion order and keys are unique in every mapping this development
builds. -/
abbrev RawMapping := List (String × String)

/-- The keys of a mapping, in order. -/
def keysOf (m : RawMapping) : List String := m.map Prod.fst

/-- Property lookup on a mapping: the value at the first entry carrying the
key, if any. -/
def lookup (m : RawMapping) (k : String) : Option String :=
  match m with
  | [] => none
  | q :: rest => if q.1 = k then some q.2 else lookup rest k

/-- JS object property assignment semantics: when the key already exists its
value is overwritten in place (the entry keeps its position), otherwise the
new entry is appended at the end. -/
def insertKV (m : RawMapping) (k v : String) : RawMapping :=
  if k ∈ keysOf m then m.map (fun q => if q.1 = k then (k, v) else q)
  else m ++ [(k, v)]

/-- Replacement of the first occurrence of a pattern in a character list,
matching the semantics of the JS expression key.replace(pat, repl) when pat
is a plain string: only the first occurrence is rewritten. -/
def replaceFirstChars (s pat repl : List Char) : List Char :=
  match s with
  | [] => []
  | c :: rest =>
    if pat.isPrefixOf (c :: rest) then repl ++ (c :: rest).drop pat.length
    else c :: replaceFirstChars rest pat repl

/-- Whether a pattern occurs as a contiguous sublist. -/
def hasOccChars (s pat : List Char) : Bool :=
  match s with
  | [] => pat.isEmpty
  | c :: rest => pat.isPrefixOf (c :: rest) || hasOccChars rest pat

/-- The key rewrite performed by replaceResinKeys on a single key: the JS
expression key.replace(resinWord, balenaWord), which rewrites the first
occurrence of the legacy product name. -/
def replKey (k : String) : String :=
  ⟨replaceFirstChars k.data "resin".data "balena".data⟩

/-- Whether a key contains the legacy product-name substring. -/
def containsResin (k : String) : Bool :=
  hasOccChars k.data "resin".data

/-- The key normalizer from src/lib/settings.ts: lodash mapKeys over the
parsed mapping, rewriting each key with replKey. Iteration is in object
order and a later entry whose rewritten key collides with an earlier one
overwrites it, as JS object assignment does. -/
def replaceResinKeys (m : RawMapping) : RawMapping :=
  m.foldl (fun acc q => insertKV acc (replKey q.1) q.2) []

/-- Modelled from the spec: utils.mergeObjects merges a source object into a
destination object key by key, the source overriding the destination
(src/lib/utils.ts is not part of the provided sources; spec section 4.4
describes the precedence-ordered merge, later sources overriding earlier,
over the flat string-valued mappings declared by getSettings). -/
def mergeTwo (dst src : RawMapping) : RawMapping :=
  src.foldl (fun acc q => insertKV acc q.1 q.2) dst

/-- Modelled from the spec: the variadic utils.mergeObjects call, folding the
listed sources left to right into an initially empty accumulator. -/
def mergeObjects (ms : List RawMapping) : RawMapping :=
  ms.foldl mergeTwo []

/-- The pure merge skeleton of getSettings in src/lib/settings.ts: defaults,
then the normalized legacy user mapping, the current user mapping, the
normalized legacy project mapping, the current project mapping, and the
environment-derived mapping, merged in this order. -/
def getSettingsPure (d ulm um plm pm em : RawMapping) : RawMapping :=
  mergeObjects [d, replaceResinKeys ulm, um, replaceResinKeys plm, pm, em]

/-- The value a key resolves to by precedence alone: the value of the
latest-listed source that defines the key, if any source does. -/
def highestPrec (sources : List RawMapping) (k : String) : Option String :=
  sources.foldl
    (fun acc m => match lookup m k with | some v => some v | none => acc) none

/-- Splitting a character list at underscores. -/
def splitUnderscore : List Char → List (List Char)
  | [] => [[]]
  | c :: rest =>
    let r := splitUnderscore rest
    if c = '_' then [] :: r
    else
      match r with
      | [] => [[c]]
      | w :: ws => (c :: w) :: ws

/-- Capitalization of one word: first character upper case, rest lower case. -/
def capitalizeWord : List Char → List Char
  | [] => []
  | c :: cs => c.toUpper :: cs.map Char.toLower

/-- SCREAMING_SNAKE_CASE to camelCase, used for environment variable names. -/
def snakeToCamelChars (s : List Char) : List Char :=
  match splitUnderscore s with
  | [] => []
  | w :: ws => w.map Char.toLower ++ (ws.map capitalizeWord).flatten

/-- Modelled from the spec: environment.parse (src/lib/environment.ts is not
part of the provided sources; spec section 4.3) keeps the variables whose
name starts with the BALENARC marker, strips it, converts the remainder to
camelCase, skips variables whose stripped name is empty, and takes values as
raw strings. -/
def environmentParse (env : List (String × String)) : RawMapping :=
  env.foldl
    (fun acc q =>
      if "BALENARC_".data.isPrefixOf q.1.data then
        let name := snakeToCamelChars (q.1.data.drop "BALENARC_".data.length)
        if name = [] then acc else insertKV acc ⟨name⟩ q.2
      else acc)
    []

/-- The outcome of one synchronous file-system read, as seen by
readConfigFile: either the full text of the file or a failed read carrying
the error code of the thrown error. -/
inductive FsResult where
  | content (text : String)
  | fsError (code : String)
deriving DecidableEq, Repr

/-- The errors the settings computation can surface: an I/O failure
propagated unchanged from the file system, or a parse failure wrapping the
offending file path and the underlying parser message. -/
inductive SettingsError where
  | ioFailure (code : String)
  | parseFailure (file : String) (msg : String)
deriving DecidableEq, Repr

/-- The message carried by a settings error; for a parse failure this is the
string built by readConfigFile in src/lib/settings.ts. -/
def SettingsError.message : SettingsError → String
  | .ioFailure code => code
  | .parseFailure file msg => "Error parsing config file " ++ file ++ ": " ++ msg

/-- readConfigFile from src/lib/settings.ts: read the file synchronously; a
read failing with code ENOENT yields the empty mapping, any other read
failure is rethrown unchanged; the text is then parsed, a parser error being
wrapped into a parse failure naming the file. The file system and the YAML
parser are external collaborators passed as functions. -/
def readConfigFile (fsRead : String → FsResult)
    (yamlParse : String → Except String RawMapping) (file : String) :
    Except SettingsError RawMapping :=
  match fsRead file with
  | .fsError code =>
    if code = "ENOENT" then .ok [] else .error (.ioFailure code)
  | .content text =>
    match yamlParse text with
    | .ok parsed => .ok parsed
    | .error msg => .error (.parseFailure file msg)

/-- The four config file paths resolved by src/lib/config.ts (an external
collaborator): legacy user, current user, legacy project, current project. -/
structure ConfigPaths where
  userLegacy : String
  user : String
  projectLegacy : String
  project : String
deriving Repr

/-- The ambient process environment the settings computation consumes: the
file system, the YAML parser, and the environment variables. -/
structure ProcessEnv where
  fsRead : String → FsResult
  yamlParse : String → Except String RawMapping
  envVars : List (String × String)

/-- The file paths in the order getSettings reads them. -/
def fourPaths (cp : ConfigPaths) : List String :=
  [cp.userLegacy, cp.user, cp.projectLegacy, cp.project]

/-- The body of getSettings in src/lib/settings.ts, together with the list of
file reads it performed: the four config files are read in argument order
(legacy user, user, legacy project, project), the first failing read aborting
the computation, and on success the mappings are merged by getSettingsPure
with the parsed environment. -/
def computeSettingsR (d : RawMapping) (cp : ConfigPaths) (pe : ProcessEnv) :
    Except SettingsError RawMapping × List String :=
  match readConfigFile pe.fsRead pe.yamlParse cp.userLegacy with
  | .error e => (.error e, [cp.userLegacy])
  | .ok ulm =>
    match readConfigFile pe.fsRead pe.yamlParse cp.user with
    | .error e => (.error e, [cp.userLegacy, cp.user])
    | .ok um =>
      match readConfigFile pe.fsRead pe.yamlParse cp.projectLegacy with
      | .error e => (.error e, [cp.userLegacy, cp.user, cp.projectLegacy])
      | .ok plm =>
        match readConfigFile pe.fsRead pe.yamlParse cp.project with
        | .error e => (.error e, fourPaths cp)
        | .ok pm =>
          (.ok (getSettingsPure d ulm um plm pm (environmentParse pe.envVars)),
            fourPaths cp)

/-- The state of the lodash once wrapper around getSettings: not yet called,
holding a computed mapping, or poisoned by a first call that threw (lodash
once never calls the wrapped function again after the first invocation, even
a throwing one). -/
inductive CacheState where
  | fresh
  | cached (settings : RawMapping)
  | poisoned
deriving Repr

/-- What one call to the memoized getSettings produces: its outcome (a thrown
error, or a returned value where none models the JS undefined returned by
the once wrapper after a poisoned first call), the cache state after the
call, and the file reads the call performed. -/
structure CallResult where
  outcome : Except SettingsError (Option RawMapping)
  state : CacheState
  reads : List String

/-- getSettings from src/lib/settings.ts, a lodash once wrapper around the
read-and-merge computation, modelled as an explicit state machine: the first
call runs computeSettingsR and caches its result on success; after a success
every call returns the cached mapping with no reads; after a throwing first
call the wrapper returns undefined with no reads and never recomputes. -/
def getSettings (d : RawMapping) (cp : ConfigPaths) (pe : ProcessEnv) :
    CacheState → CallResult
  | .fresh =>
    match computeSettingsR d cp pe with
    | (.ok m, reads) => ⟨.ok (some m), .cached m, reads⟩
    | (.error e, reads) => ⟨.error e, .poisoned, reads⟩
  | .cached m => ⟨.ok (some m), .cached m, []⟩
  | .poisoned => ⟨.ok none, .poisoned, []⟩

/-- The results of a sequence of calls to the memoized getSettings, each call
starting from the cache state the previous one left behind. -/
def callTrace (d : RawMapping) (cp : ConfigPaths) (pe : ProcessEnv) :
    Nat → CacheState → List CallResult
  | 0, _ => []
  | n + 1, st =>
    let r := getSettings d cp pe st
    r :: callTrace d cp pe n r.state

/-- Modelled from the spec: utils.evaluateSetting (src/lib/utils.ts is not
part of the provided sources; spec section 4.5) looks the name up in the
resolved configuration, returns absent for an unknown name without raising,
and follows exactly one level of aliasing when the stored value is itself
the name of another setting. -/
def evaluateSetting (settings : RawMapping) (name : String) : Option String :=
  match lookup settings name with
  | none => none
  | some v =>
    match lookup settings v with
    | some aliased => some aliased
    | none => some v

/-- The public get of src/lib/settings.ts applied to an already resolved
configuration: evaluateSetting on the merged mapping. -/
def get (settings : RawMapping) (name : String) : Option String :=
  evaluateSetting settings name

/-- The public getAll of src/lib/settings.ts applied to an already resolved
configuration: every key of the mapping, paired with the result of get on
that key. -/
def getAllFrom (settings : RawMapping) : List (String × Option String) :=
  settings.map (fun q => (q.1, get settings q.1))

/-- The outcome of one getAll call, derived from the outcome of the
getSettings call it performs. -/
def getAllResult (r : CallResult) :
    Except SettingsError (Option (List (String × Option String))) :=
  match r.outcome with
  | .error e => .error e
  | .ok none => .ok none
  | .ok (some s) => .ok (some (getAllFrom s))

/-- A store of JS objects addressed by allocation index, used to express
which objects the merge writes. -/
structure Store where
  objs : List RawMapping

/-- The mapping held by the object at an index (the empty mapping for an
unallocated index). -/
def readObj (st : Store) (i : Nat) : RawMapping := st.objs.getD i []

/-- Modelled from the spec: the in-place behaviour of utils.mergeObjects on
its destination object (spec section 2 describes the sources being merged
left to right into an accumulator): the destination object is overwritten
with the fold of the sources into its previous contents, and no other object
is written. -/
def mergeObjectsAt (st : Store) (dst : Nat) (srcIds : List Nat) : Store :=
  ⟨st.objs.set dst
    (srcIds.foldl (fun acc j => mergeTwo acc (readObj st j)) (readObj st dst))⟩

/-- The allocation performed by the getSettings body: a fresh empty object is
allocated (the object literal passed as the first mergeObjects argument in
src/lib/settings.ts) and the sources are merged into it. Returns the
resulting store and the index of the fresh accumulator. -/
def getSettingsAlloc (st : Store) (srcIds : List Nat) : Store × Nat :=
  (mergeObjectsAt ⟨st.objs ++ [[]]⟩ st.objs.length srcIds, st.objs.length)

@[simp] theorem keysOf_nil : keysOf [] = [] := rfl

@[simp] theorem keysOf_cons (q : String × String) (m : RawMapping) :
    keysOf (q :: m) = q.1 :: keysOf m := rfl

theorem keysOf_append (a b : RawMapping) :
    keysOf (a ++ b) = keysOf a ++ keysOf b := List.map_append _ _ _

@[simp] theorem lookup_nil (k : String) : lookup [] k = none := rfl

theorem lookup_cons (q : String × String) (m : RawMapping) (k : String) :
    lookup (q :: m) k = if q.1 = k then some q.2 else lookup m k := rfl

theorem lookup_eq_none_of_not_mem (m : RawMapping) (k : String)
    (h : k ∉ keysOf m) : lookup m k = none := by
  induction m with
  | nil => rfl
  | cons q rest ih =>
    rw [keysOf_cons, List.mem_cons] at h
    push_neg at h
    rw [lookup_cons, if_neg (fun hq => h.1 hq.symm), ih h.2]

theorem lookup_append (a b : RawMapping) (k : String) :
    lookup (a ++ b) k =
      match lookup a k with
      | some v => some v
      | none => lookup b k := by
  induction a with
  | nil => simp
  | cons q rest ih =>
    by_cases hq : q.1 = k
    · simp [lookup_cons, hq]
    · simp [lookup_cons, hq, ih]

theorem lookup_map_replace (m : RawMapping) (k v k2 : String) :
    lookup (m.map (fun q => if q.1 = k then (k, v) else q)) k2 =
      if k2 = k then (if k ∈ keysOf m then some v else none)
      else lookup m k2 := by
  induction m with
  | nil => simp
  | cons q rest ih =>
    by_cases hq : q.1 = k
    · by_cases hk2 : k2 = k
      · subst hk2
        simp [lookup_cons, hq, keysOf_cons]
      · have hq2 : ¬ q.1 = k2 := fun h => hk2 (hq.symm.trans h).symm
        have hkk2 : ¬ k = k2 := fun h => hk2 h.symm
        simp only [List.map_cons, if_pos hq, lookup_cons, ih, if_neg hk2,
          if_neg hq2, if_neg hkk2]
    · by_cases hqe : q.1 = k2
      · have hk2 : ¬ k2 = k := fun h => hq (hqe.trans h)
        simp [lookup_cons, hq, hqe, hk2]
      · simp only [List.map_cons, if_neg hq, lookup_cons, if_neg hqe, ih, keysOf_cons]
        by_cases hk2 : k2 = k
        · have hkq : ¬ k = q.1 := fun h => hq h.symm
          simp [hk2, List.mem_cons, hkq]
        · simp [hk2]

theorem lookup_insertKV (m : RawMapping) (k v k2 : String) :
    lookup (insertKV m k v) k2 = if k2 = k then some v else lookup m k2 := by
  unfold insertKV
  by_cases hm : k ∈ keysOf m
  · rw [if_pos hm, lookup_map_replace]
    by_cases hk2 : k2 = k
    · simp [hk2, hm]
    · simp [hk2]
  · rw [if_neg hm, lookup_append]
    by_cases hk2 : k2 = k
    · subst hk2
      rw [lookup_eq_none_of_not_mem m k2 hm]
      simp [lookup]
    · cases h2 : lookup m k2
      · simp [lookup_cons, if_neg (fun h : k = k2 => hk2 h.symm), hk2]
      · simp [hk2]

theorem keysOf_insertKV (m : RawMapping) (k v : String) :
    keysOf (insertKV m k v) =
      if k ∈ keysOf m then keysOf m else keysOf m ++ [k] := by
  unfold insertKV
  by_cases hm : k ∈ keysOf m
  · rw [if_pos hm, if_pos hm]
    unfold keysOf
    rw [List.map_map]
    apply List.map_congr_left
    intro q _
    by_cases hqk : q.1 = k <;> simp [hqk]
  · rw [if_neg hm, if_neg hm, keysOf_append]
    rfl

theorem nodup_keysOf_insertKV (m : RawMapping) (k v : String)
    (h : (keysOf m).Nodup) : (keysOf (insertKV m k v)).Nodup := by
  rw [keysOf_insertKV]
  by_cases hm : k ∈ keysOf m
  · rwa [if_pos hm]
  · rw [if_neg hm, List.nodup_append]
    exact ⟨h, List.nodup_singleton k, List.disjoint_singleton.mpr hm⟩

theorem mem_insertKV (m : RawMapping) (k v : String) (q : String × String) :
    q ∈ insertKV m k v ↔ q = (k, v) ∨ (q ∈ m ∧ q.1 ≠ k) := by
  unfold insertKV
  by_cases hm : k ∈ keysOf m
  · rw [if_pos hm]
    constructor
    · intro hq
      rcases List.mem_map.mp hq with ⟨p, hp, hpq⟩
      by_cases hpk : p.1 = k
      · left
        rw [← hpq, if_pos hpk]
      · right
        rw [← hpq, if_neg hpk]
        exact ⟨hp, hpk⟩
    · intro hq
      rcases hq with hq | ⟨hq, hqk⟩
      · rcases List.mem_map.mp hm with ⟨p, hp, hpk⟩
        exact List.mem_map.mpr ⟨p, hp, by rw [if_pos hpk, hq]⟩
      · exact List.mem_map.mpr ⟨q, hq, by rw [if_neg hqk]⟩
  · rw [if_neg hm, List.mem_append]
    constructor
    · intro hq
      rcases hq with hq | hq
      · right
        exact ⟨hq, fun hqk => hm (hqk ▸ List.mem_map_of_mem Prod.fst hq)⟩
      · left
        simpa using hq
    · intro hq
      rcases hq with hq | ⟨hq, _⟩
      · right
        simp [hq]
      · left
        exact hq

theorem lookup_mergeTwo (a b : RawMapping) (k : String)
    (hb : (keysOf b).Nodup) :
    lookup (mergeTwo a b) k =
      match lookup b k with
      | some v => some v
      | none => lookup a k := by
  induction b generalizing a with
  | nil => simp [mergeTwo]
  | cons q rest ih =>
    rw [keysOf_cons, List.nodup_cons] at hb
    unfold mergeTwo
    rw [List.foldl_cons]
    rw [show rest.foldl (fun acc q2 => insertKV acc q2.1 q2.2) (insertKV a q.1 q.2)
        = mergeTwo (insertKV a q.1 q.2) rest from rfl]
    rw [ih _ hb.2, lookup_cons]
    by_cases hq : q.1 = k
    · rw [if_pos hq, lookup_eq_none_of_not_mem rest k (hq ▸ hb.1)]
      simp [lookup_insertKV, hq]
    · rw [if_neg hq]
      cases h2 : lookup rest k
      · have hkq : ¬ k = q.1 := fun h => hq h.symm
        simp [lookup_insertKV, hkq]
      · simp

theorem lookup_foldl_mergeTwo (ms : List RawMapping) :
    ∀ (acc : RawMapping) (k : String), (∀ m2 ∈ ms, (keysOf m2).Nodup) →
      lookup (ms.foldl mergeTwo acc) k =
        ms.foldl
          (fun o m2 => match lookup m2 k with
            | some v => some v
            | none => o)
          (lookup acc k) := by
  induction ms with
  | nil => intro acc k _; rfl
  | cons m2 rest ih =>
    intro acc k h
    rw [List.foldl_cons, List.foldl_cons]
    rw [ih _ k (fun x hx => h x (List.mem_cons_of_mem _ hx))]
    rw [lookup_mergeTwo _ _ _ (h m2 (List.mem_cons_self _ _))]

theorem lookup_mergeObjects (ms : List RawMapping) (k : String)
    (h : ∀ m2 ∈ ms, (keysOf m2).Nodup) :
    lookup (mergeObjects ms) k = highestPrec ms k := by
  unfold mergeObjects highestPrec
  rw [lookup_foldl_mergeTwo ms [] k h]
  rfl

theorem nodup_keysOf_replaceFold (m : RawMapping) :
    ∀ acc : RawMapping, (keysOf acc).Nodup →
      (keysOf (m.foldl (fun a q => insertKV a (replKey q.1) q.2) acc)).Nodup := by
  induction m with
  | nil => intro acc h; exact h
  | cons q rest ih =>
    intro acc h
    rw [List.foldl_cons]
    exact ih _ (nodup_keysOf_insertKV _ _ _ h)

theorem nodup_keysOf_replaceResinKeys (m : RawMapping) :
    (keysOf (replaceResinKeys m)).Nodup :=
  nodup_keysOf_replaceFold m [] List.nodup_nil

theorem mem_keysOf_replaceFold (m : RawMapping) :
    ∀ (acc : RawMapping) (k : String),
      (k ∈ keysOf acc ∨ ∃ q ∈ m, replKey q.1 = k) →
      k ∈ keysOf (m.foldl (fun a q => insertKV a (replKey q.1) q.2) acc) := by
  induction m with
  | nil =>
    intro acc k h
    rcases h with h | ⟨q, hq, _⟩
    · exact h
    · exact absurd hq (List.not_mem_nil q)
  | cons q rest ih =>
    intro acc k h
    rw [List.foldl_cons]
    apply ih
    rcases h with h | ⟨p, hp, hpk⟩
    · left
      rw [keysOf_insertKV]
      by_cases hm : replKey q.1 ∈ keysOf acc
      · rwa [if_pos hm]
      · rw [if_neg hm, List.mem_append]
        exact Or.inl h
    · rcases List.mem_cons.mp hp with rfl | hp2
      · left
        rw [keysOf_insertKV]
        by_cases hm : replKey p.1 ∈ keysOf acc
        · rw [if_pos hm]
          exact hpk ▸ hm
        · rw [if_neg hm, List.mem_append]
          right
          simp [hpk]
      · right
        exact ⟨p, hp2, hpk⟩

theorem mem_replaceFold (m : RawMapping) :
    ∀ (acc : RawMapping) (q2 : String × String),
      q2 ∈ m.foldl (fun a q => insertKV a (replKey q.1) q.2) acc →
      q2 ∈ acc ∨ ∃ p ∈ m, replKey p.1 = q2.1 ∧ p.2 = q2.2 := by
  induction m with
  | nil => intro acc q2 h; exact Or.inl h
  | cons q rest ih =>
    intro acc q2 h
    rw [List.foldl_cons] at h
    rcases ih _ _ h with h2 | ⟨p, hp, hpk, hpv⟩
    · rcases (mem_insertKV _ _ _ _).mp h2 with rfl | ⟨ha, _⟩
      · exact Or.inr ⟨q, List.mem_cons_self _ _, rfl, rfl⟩
      · exact Or.inl ha
    · exact Or.inr ⟨p, List.mem_cons_of_mem _ hp, hpk, hpv⟩

theorem replaceFold_eq_map (m : RawMapping) :
    ∀ acc : RawMapping,
      (keysOf acc ++ m.map (fun q => replKey q.1)).Nodup →
      m.foldl (fun a q => insertKV a (replKey q.1) q.2) acc
        = acc ++ m.map (fun q => (replKey q.1, q.2)) := by
  induction m with
  | nil => intro acc _; simp
  | cons q rest ih =>
    intro acc h
    have hnotin : replKey q.1 ∉ keysOf acc := by
      rcases List.nodup_append.mp h with ⟨_, _, hdisj⟩
      intro hin
      exact hdisj hin (by simp)
    have hins : insertKV acc (replKey q.1) q.2 = acc ++ [(replKey q.1, q.2)] := by
      unfold insertKV
      rw [if_neg hnotin]
    have hk : keysOf (acc ++ [(replKey q.1, q.2)]) = keysOf acc ++ [replKey q.1] := by
      rw [keysOf_append]
      rfl
    have h2 : (keysOf (acc ++ [(replKey q.1, q.2)])
        ++ rest.map (fun q2 => replKey q2.1)).Nodup := by
      rw [hk, List.append_assoc]
      simpa using h
    rw [List.foldl_cons, hins, ih _ h2]
    simp

theorem replaceFirstChars_of_no_occ (s pat repl : List Char)
    (h : hasOccChars s pat = false) : replaceFirstChars s pat repl = s := by
  induction s with
  | nil => rfl
  | cons c rest ih =>
    unfold hasOccChars at h
    rw [Bool.or_eq_false_iff] at h
    unfold replaceFirstChars
    rw [if_neg (by simp [h.1]), ih h.2]

theorem replaceFirstChars_decomp (s pat repl : List Char) (hp : pat ≠ [])
    (h : hasOccChars s pat = true) :
    ∃ a b : List Char, s = a ++ pat ++ b ∧
      replaceFirstChars s pat repl = a ++ repl ++ b := by
  induction s with
  | nil =>
    unfold hasOccChars at h
    exact absurd (List.isEmpty_iff.mp h) hp
  | cons c rest ih =>
    by_cases h1 : pat.isPrefixOf (c :: rest)
    · rcases List.isPrefixOf_iff_prefix.mp h1 with ⟨t, ht⟩
      refine ⟨[], t, by simp [← ht], ?_⟩
      unfold replaceFirstChars
      rw [if_pos h1, ← ht, List.drop_left]
      simp
    · unfold hasOccChars at h
      rw [Bool.or_eq_true] at h
      rcases h with h | h
      · exact absurd h h1
      · rcases ih h with ⟨a, b, ha, hb⟩
        refine ⟨c :: a, b, by simp [ha], ?_⟩
        unfold replaceFirstChars
        rw [if_neg h1, hb]
        simp

theorem replKey_of_not_contains (k : String) (h : containsResin k = false) :
    replKey k = k := by
  unfold containsResin at h
  unfold replKey
  rw [replaceFirstChars_of_no_occ _ _ _ h]

theorem replKey_decomp (k : String) (h : containsResin k = true) :
    ∃ a b : List Char, k.data = a ++ "resin".data ++ b ∧
      (replKey k).data = a ++ "balena".data ++ b := by
  unfold containsResin at h
  rcases replaceFirstChars_decomp k.data "resin".data "balena".data
    (by decide) h with ⟨a, b, ha, hb⟩
  exact ⟨a, b, ha, hb⟩

theorem evaluateSetting_none (settings : RawMapping) (name : String)
    (h : lookup settings name = none) : evaluateSetting settings name = none := by
  unfold evaluateSetting
  rw [h]

theorem evaluateSetting_direct (settings : RawMapping) (name v : String)
    (h1 : lookup settings name = some v) (h2 : lookup settings v = none) :
    evaluateSetting settings name = some v := by
  unfold evaluateSetting
  rw [h1]
  simp [h2]

theorem evaluateSetting_alias (settings : RawMapping) (name v w : String)
    (h1 : lookup settings name = some v) (h2 : lookup settings v = some w) :
    evaluateSetting settings name = some w := by
  unfold evaluateSetting
  rw [h1]
  simp [h2]

example : replKey "resinDataDirectory" = "balenaDataDirectory" := by decide
example : replKey "dataDirectory" = "dataDirectory" := by decide
example : replKey "resinresin" = "balenaresin" := by decide
example : replaceResinKeys [("resinUrl", "a"), ("balenaUrl", "b")]
    = [("balenaUrl", "b")] := by decide
example : environmentParse [("BALENARC_DATA_DIRECTORY", "/x"), ("FOO_BAR", "z")]
    = [("dataDirectory", "/x")] := by decide
example :
    lookup (getSettingsPure [("a", "1")] [] [("a", "2")] [] [] [("a", "3")]) "a"
      = some "3" := by decide

/-- C6: for every file path, if the file does not exist (the synchronous read
fails with code ENOENT), readConfigFile returns the empty mapping and does
not raise an error. -/
theorem readConfigFile_missing_file (fsRead : String → FsResult)
    (yamlParse : String → Except String RawMapping) (file : String)
    (h : fsRead file = .fsError "ENOENT") :
    readConfigFile fsRead yamlParse file = .ok [] := by
  unfold readConfigFile
  rw [h]
  simp

/-- Witness for C6 at a concrete file system in which every read fails with
ENOENT. -/
theorem readConfigFile_missing_file_witness :
    (fun _ : String => FsResult.fsError "ENOENT") "f" = FsResult.fsError "ENOENT"
      ∧ readConfigFile (fun _ => FsResult.fsError "ENOENT")
          (fun _ => Except.ok []) "f" = Except.ok [] :=
  ⟨rfl, readConfigFile_missing_file _ _ "f" rfl⟩

/-- C7: for every file whose read succeeds but whose content fails to parse,
readConfigFile fails with a parse error carrying the offending file path and
the parser message, whose rendered message includes both, and no mapping is
returned. -/
theorem readConfigFile_parse_failure (fsRead : String → FsResult)
    (yamlParse : String → Except String RawMapping) (file text msg : String)
    (hf : fsRead file = .content text) (hp : yamlParse text = .error msg) :
    readConfigFile fsRead yamlParse file
        = .error (.parseFailure file msg) ∧
      (SettingsError.parseFailure file msg).message
        = "Error parsing config file " ++ file ++ ": " ++ msg := by
  constructor
  · unfold readConfigFile
    rw [hf]
    simp [hp]
  · rfl

/-- Witness for C7 at a concrete file system and failing parser. -/
theorem readConfigFile_parse_failure_witness :
    readConfigFile (fun _ => FsResult.content "not yaml")
        (fun _ => Except.error "bad indent") "cfg.yml"
      = Except.error (SettingsError.parseFailure "cfg.yml" "bad indent") :=
  (readConfigFile_parse_failure _ _ "cfg.yml" "not yaml" "bad indent" rfl rfl).1

/-- C4: for every name not present in the resolved configuration, get returns
the absent value (the JS undefined) and no error: evaluateSetting yields
none. -/
theorem get_unknown_name_absent (d ulm um plm pm em : RawMapping) (name : String)
    (h : lookup (getSettingsPure d ulm um plm pm em) name = none) :
    get (getSettingsPure d ulm um plm pm em) name = none :=
  evaluateSetting_none _ _ h

/-- Witness for C4 at a concrete configuration and unknown name. -/
theorem get_unknown_name_absent_witness :
    lookup (getSettingsPure [("a", "1")] [] [] [] [] []) "zz" = none ∧
    get (getSettingsPure [("a", "1")] [] [] [] [] []) "zz" = none :=
  ⟨by decide, get_unknown_name_absent [("a", "1")] [] [] [] [] [] "zz" (by decide)⟩

/-- C3 counterexample: on a mapping where two distinct keys normalize to the
same name, the normalizer does not keep every value: the value "a" stored
under resinUrl (a key containing the legacy substring) is absent from the
result, contradicting the claim that every key has its substring replaced
with the associated value unchanged for any flat mapping. -/
theorem replaceResinKeys_collision_counterexample :
    replaceResinKeys [("resinUrl", "a"), ("balenaUrl", "b")]
        = [("balenaUrl", "b")] ∧
      ("balenaUrl", "a") ∉ replaceResinKeys [("resinUrl", "a"), ("balenaUrl", "b")] ∧
      containsResin "resinUrl" = true := by decide

/-- C3 (amended): applied to a flat mapping in which no two keys normalize to
the same name, the normalizer rewrites exactly the keys, each value
unchanged; a key without the legacy substring passes through unmodified, and
a key containing it has that substring (its first occurrence, as the JS
string replace does) replaced by the current product name with the rest of
the key unchanged. -/
theorem replaceResinKeys_normalizes (m : RawMapping)
    (hnc : (m.map (fun q => replKey q.1)).Nodup) :
    replaceResinKeys m = m.map (fun q => (replKey q.1, q.2)) ∧
    (∀ k : String, containsResin k = false → replKey k = k) ∧
    (∀ k : String, containsResin k = true →
      ∃ a b : List Char, k.data = a ++ "resin".data ++ b ∧
        (replKey k).data = a ++ "balena".data ++ b) := by
  refine ⟨?_, fun k hk => replKey_of_not_contains k hk,
    fun k hk => replKey_decomp k hk⟩
  unfold replaceResinKeys
  apply replaceFold_eq_map
  simpa using hnc

/-- Witness for C3 (amended) at a concrete collision-free mapping. -/
theorem replaceResinKeys_normalizes_witness :
    ((([("resinUrl", "u"), ("dataDirectory", "d")] : RawMapping).map
        (fun q => replKey q.1)).Nodup) ∧
      replaceResinKeys [("resinUrl", "u"), ("dataDirectory", "d")]
        = [("balenaUrl", "u"), ("dataDirectory", "d")] :=
  ⟨by decide, (replaceResinKeys_normalizes _ (by decide)).1.trans (by decide)⟩

/-- C10: the normalized mapping contains each normalized name exactly once
(its key list has no duplicates), every key of the input is represented by
its normalized name, and every surviving value is the value of one of the
input entries normalizing to that name, so on a collision exactly one of the
colliding values survives and the others are silently discarded. -/
theorem replaceResinKeys_collision_unique (m : RawMapping) :
    (keysOf (replaceResinKeys m)).Nodup ∧
    (∀ q ∈ m, ∃ v, (replKey q.1, v) ∈ replaceResinKeys m) ∧
    (∀ q2 ∈ replaceResinKeys m, ∃ p ∈ m, replKey p.1 = q2.1 ∧ p.2 = q2.2) := by
  refine ⟨nodup_keysOf_replaceResinKeys m, ?_, ?_⟩
  · intro q hq
    have hk : replKey q.1 ∈ keysOf (replaceResinKeys m) :=
      mem_keysOf_replaceFold m [] _ (Or.inr ⟨q, hq, rfl⟩)
    rcases List.mem_map.mp hk with ⟨p, hp, hpk⟩
    exact ⟨p.2, by rw [← hpk]; exact hp⟩
  · intro q2 hq2
    rcases mem_replaceFold m [] q2 hq2 with h | h
    · exact absurd h (List.not_mem_nil q2)
    · exact h

/-- Witness for C10 at the concrete colliding mapping from the claim: both
resinUrl and balenaUrl normalize to balenaUrl, which occurs exactly once in
the result. -/
theorem replaceResinKeys_collision_unique_witness :
    (keysOf (replaceResinKeys [("resinUrl", "a"), ("balenaUrl", "b")])).Nodup :=
  (replaceResinKeys_collision_unique [("resinUrl", "a"), ("balenaUrl", "b")]).1

/-- C1 counterexample: the key a is defined both by the defaults (value z)
and by the environment mapping (value b, the highest-precedence source), so
the claim says get of a returns b; but because b is itself the name of
another setting, the one-level alias evaluation of the accessor returns the
aliased value x instead. -/
theorem get_precedence_alias_counterexample :
    lookup ([("b", "x"), ("a", "z")] : RawMapping) "a" = some "z" ∧
    lookup ([("a", "b")] : RawMapping) "a" = some "b" ∧
    highestPrec [[("b", "x"), ("a", "z")], [], [], [], [], [("a", "b")]] "a"
      = some "b" ∧
    get (getSettingsPure [("b", "x"), ("a", "z")] [] [] [] [] [("a", "b")]) "a"
      = some "x" ∧
    get (getSettingsPure [("b", "x"), ("a", "z")] [] [] [] [] [("a", "b")]) "a"
      ≠ some "b" := by decide

/-- C1 (amended): the resolved configuration is the precedence-ordered merge
of defaults, normalized legacy user file, current user file, normalized
legacy project file, current project file and environment mapping: for every
key, the stored value is that of the latest-listed source defining it, for
any subset of sources defining it; get returns that value whenever it is not
itself the name of a setting of the resolved configuration, and otherwise
returns the value of the setting it names (one level of aliasing). Sources
are flat mappings with unique keys, as the data model requires. -/
theorem getSettingsPure_precedence (d ulm um plm pm em : RawMapping)
    (hd : (keysOf d).Nodup) (hu : (keysOf um).Nodup)
    (hpm : (keysOf pm).Nodup) (he : (keysOf em).Nodup) (k : String) :
    lookup (getSettingsPure d ulm um plm pm em) k
        = highestPrec [d, replaceResinKeys ulm, um, replaceResinKeys plm, pm, em] k ∧
    (∀ v : String,
      highestPrec [d, replaceResinKeys ulm, um, replaceResinKeys plm, pm, em] k
          = some v →
        lookup (getSettingsPure d ulm um plm pm em) v = none →
        get (getSettingsPure d ulm um plm pm em) k = some v) ∧
    (∀ v w : String,
      highestPrec [d, replaceResinKeys ulm, um, replaceResinKeys plm, pm, em] k
          = some v →
        lookup (getSettingsPure d ulm um plm pm em) v = some w →
        get (getSettingsPure d ulm um plm pm em) k = some w) := by
  have hall : ∀ m2 ∈ [d, replaceResinKeys ulm, um, replaceResinKeys plm, pm, em],
      (keysOf m2).Nodup := by
    intro m2 hm2
    simp only [List.mem_cons, List.not_mem_nil, or_false] at hm2
    rcases hm2 with rfl | rfl | rfl | rfl | rfl | rfl
    exacts [hd, nodup_keysOf_replaceResinKeys _, hu,
      nodup_keysOf_replaceResinKeys _, hpm, he]
  have hmain : lookup (getSettingsPure d ulm um plm pm em) k
      = highestPrec [d, replaceResinKeys ulm, um, replaceResinKeys plm, pm, em] k :=
    lookup_mergeObjects _ _ hall
  refine ⟨hmain, ?_, ?_⟩
  · intro v hv hnone
    exact evaluateSetting_direct _ _ _ (hmain.trans hv) hnone
  · intro v w hv hsome
    exact evaluateSetting_alias _ _ _ _ (hmain.trans hv) hsome

/-- Witness for C1 (amended) at concrete sources: the key k is defined by
defaults, current user file and environment with distinct values, and get
returns the environment value. -/
theorem getSettingsPure_precedence_witness :
    get (getSettingsPure [("k", "1")] [] [("k", "2")] [] [] [("k", "3")]) "k"
      = some "3" :=
  (getSettingsPure_precedence [("k", "1")] [] [("k", "2")] [] [] [("k", "3")]
      (by decide) (by decide) (by decide) (by decide) "k").2.1 "3"
    (by decide) (by decide)

/-- C8: key normalization is applied exactly to the two legacy-path sources.
For any value, a legacy user or legacy project mapping with key
resinDataDirectory is merged under balenaDataDirectory (and not under the
original key), while the literal key resinDataDirectory in the current user
file, the current project file or the environment-derived mapping is merged
unchanged (and never as balenaDataDirectory). -/
theorem normalization_only_legacy (v : String) :
    (lookup (getSettingsPure [] [("resinDataDirectory", v)] [] [] [] [])
        "balenaDataDirectory" = some v ∧
      lookup (getSettingsPure [] [("resinDataDirectory", v)] [] [] [] [])
        "resinDataDirectory" = none) ∧
    (lookup (getSettingsPure [] [] [] [("resinDataDirectory", v)] [] [])
        "balenaDataDirectory" = some v ∧
      lookup (getSettingsPure [] [] [] [("resinDataDirectory", v)] [] [])
        "resinDataDirectory" = none) ∧
    (lookup (getSettingsPure [] [] [("resinDataDirectory", v)] [] [] [])
        "resinDataDirectory" = some v ∧
      lookup (getSettingsPure [] [] [("resinDataDirectory", v)] [] [] [])
        "balenaDataDirectory" = none) ∧
    (lookup (getSettingsPure [] [] [] [] [("resinDataDirectory", v)] [])
        "resinDataDirectory" = some v ∧
      lookup (getSettingsPure [] [] [] [] [("resinDataDirectory", v)] [])
        "balenaDataDirectory" = none) ∧
    (lookup (getSettingsPure [] [] [] [] [] [("resinDataDirectory", v)])
        "resinDataDirectory" = some v ∧
      lookup (getSettingsPure [] [] [] [] [] [("resinDataDirectory", v)])
        "balenaDataDirectory" = none) :=
  ⟨⟨rfl, rfl⟩, ⟨rfl, rfl⟩, ⟨rfl, rfl⟩, ⟨rfl, rfl⟩, ⟨rfl, rfl⟩⟩

/-- Witness for C8 at a concrete value. -/
theorem normalization_only_legacy_witness :
    lookup (getSettingsPure [] [("resinDataDirectory", "/opt/d")] [] [] [] [])
        "balenaDataDirectory" = some "/opt/d" ∧
      lookup (getSettingsPure [] [] [("resinDataDirectory", "/opt/d")] [] [] [])
        "resinDataDirectory" = some "/opt/d" :=
  ⟨(normalization_only_legacy "/opt/d").1.1,
    (normalization_only_legacy "/opt/d").2.2.1.1⟩

theorem computeSettingsR_reads_of_ok (d : RawMapping) (cp : ConfigPaths)
    (pe : ProcessEnv) (m : RawMapping)
    (h : (computeSettingsR d cp pe).1 = .ok m) :
    (computeSettingsR d cp pe).2 = fourPaths cp := by
  unfold computeSettingsR at h ⊢
  cases h1 : readConfigFile pe.fsRead pe.yamlParse cp.userLegacy with
  | error e => simp [h1] at h
  | ok ulm =>
    simp only [h1] at h ⊢
    cases h2 : readConfigFile pe.fsRead pe.yamlParse cp.user with
    | error e => simp [h2] at h
    | ok um =>
      simp only [h2] at h ⊢
      cases h3 : readConfigFile pe.fsRead pe.yamlParse cp.projectLegacy with
      | error e => simp [h3] at h
      | ok plm =>
        simp only [h3] at h ⊢
        cases h4 : readConfigFile pe.fsRead pe.yamlParse cp.project with
        | error e => simp [h4] at h
        | ok pm => simp [h4]

theorem getSettings_fresh_ok (d : RawMapping) (cp : ConfigPaths)
    (pe : ProcessEnv) (m : RawMapping)
    (hok : (computeSettingsR d cp pe).1 = .ok m) :
    getSettings d cp pe .fresh = ⟨.ok (some m), .cached m, fourPaths cp⟩ := by
  have hreads := computeSettingsR_reads_of_ok d cp pe m hok
  unfold getSettings
  rcases hc : computeSettingsR d cp pe with ⟨res, reads⟩
  rw [hc] at hok hreads
  simp only at hok hreads
  subst hreads
  cases res with
  | error e => simp at hok
  | ok m2 =>
    simp only [Except.ok.injEq] at hok
    subst hok
    rfl

theorem callTrace_cached (d : RawMapping) (cp : ConfigPaths) (pe : ProcessEnv)
    (m : RawMapping) (n : Nat) :
    callTrace d cp pe n (.cached m)
      = List.replicate n ⟨.ok (some m), .cached m, []⟩ := by
  induction n with
  | zero => rfl
  | succ k ih => simp [callTrace, getSettings, ih, List.replicate_succ]

theorem flatten_replicate_nil (n : Nat) :
    (List.replicate n ([] : List String)).flatten = [] := by
  induction n with
  | zero => rfl
  | succ k ih => simp [List.replicate_succ, ih]

/-- C2: the read-and-merge computation runs once: when the first call to the
memoized getSettings succeeds with mapping m after reading the four files,
every later call (any trace length) returns the same cached mapping with no
reads; getAll on the first and on a later call yields the same fully
evaluated mapping; and, the four paths being distinct, no source file is
read more than once over any call trace. -/
theorem getSettings_memoized (d : RawMapping) (cp : ConfigPaths)
    (pe : ProcessEnv) (m : RawMapping)
    (hok : (computeSettingsR d cp pe).1 = .ok m)
    (hnd : (fourPaths cp).Nodup) :
    getSettings d cp pe .fresh = ⟨.ok (some m), .cached m, fourPaths cp⟩ ∧
    (∀ n, callTrace d cp pe n (getSettings d cp pe .fresh).state
        = List.replicate n ⟨.ok (some m), .cached m, ([] : List String)⟩) ∧
    getAllResult (getSettings d cp pe .fresh) = .ok (some (getAllFrom m)) ∧
    getAllResult (getSettings d cp pe ((getSettings d cp pe .fresh).state))
      = getAllResult (getSettings d cp pe .fresh) ∧
    (getSettings d cp pe ((getSettings d cp pe .fresh).state)).reads = [] ∧
    (∀ (n : Nat) (f : String),
      (((callTrace d cp pe n .fresh).map CallResult.reads).flatten.count f) ≤ 1) := by
  have hfresh := getSettings_fresh_ok d cp pe m hok
  refine ⟨hfresh, ?_, ?_, ?_, ?_, ?_⟩
  · intro n
    rw [hfresh]
    exact callTrace_cached d cp pe m n
  · rw [hfresh]
    rfl
  · rw [hfresh]
    rfl
  · rw [hfresh]
    rfl
  · intro n f
    cases n with
    | zero => simp [callTrace]
    | succ k =>
      have : callTrace d cp pe (k + 1) .fresh
          = (⟨.ok (some m), .cached m, fourPaths cp⟩ : CallResult)
            :: List.replicate k ⟨.ok (some m), .cached m, []⟩ := by
        simp only [callTrace]
        rw [hfresh]
        exact congrArg _ (callTrace_cached d cp pe m k)
      rw [this]
      simp only [List.map_cons, List.map_replicate, List.flatten_cons,
        flatten_replicate_nil, List.append_nil]
      exact List.nodup_iff_count_le_one.mp hnd f

/-- Witness for C2 at a concrete process (all files missing, empty
environment): the first call reads the four paths and caches the empty
merge, and across a three-call trace the first path is read at most once. -/
theorem getSettings_memoized_witness :
    getSettings [] ⟨"p1", "p2", "p3", "p4"⟩
        ⟨fun _ => FsResult.fsError "ENOENT", fun _ => Except.ok [], []⟩
        CacheState.fresh
      = ⟨Except.ok (some []), CacheState.cached [], ["p1", "p2", "p3", "p4"]⟩ ∧
    (((callTrace [] ⟨"p1", "p2", "p3", "p4"⟩
          ⟨fun _ => FsResult.fsError "ENOENT", fun _ => Except.ok [], []⟩ 3
          CacheState.fresh).map CallResult.reads).flatten.count "p1") ≤ 1 :=
  ⟨(getSettings_memoized [] ⟨"p1", "p2", "p3", "p4"⟩
      ⟨fun _ => FsResult.fsError "ENOENT", fun _ => Except.ok [], []⟩ [] rfl
      (by decide)).1,
    (getSettings_memoized [] ⟨"p1", "p2", "p3", "p4"⟩
      ⟨fun _ => FsResult.fsError "ENOENT", fun _ => Except.ok [], []⟩ [] rfl
      (by decide)).2.2.2.2.2 3 "p1"⟩

/-- C5 counterexample: with a first read whose content fails to parse, the
first call throws the parse error, but the second call performs no source
reads and returns the JS undefined instead of re-running the computation and
re-throwing: lodash once never calls the wrapped function again. -/
theorem getSettings_no_retry_counterexample :
    (getSettings [] ⟨"p1", "p2", "p3", "p4"⟩
        ⟨fun _ => FsResult.content "not yaml", fun _ => Except.error "bad", []⟩
        CacheState.fresh).outcome
      = Except.error (SettingsError.parseFailure "p1" "bad") ∧
    (getSettings [] ⟨"p1", "p2", "p3", "p4"⟩
        ⟨fun _ => FsResult.content "not yaml", fun _ => Except.error "bad", []⟩
        ((getSettings [] ⟨"p1", "p2", "p3", "p4"⟩
          ⟨fun _ => FsResult.content "not yaml", fun _ => Except.error "bad", []⟩
          CacheState.fresh).state)).reads = [] ∧
    (getSettings [] ⟨"p1", "p2", "p3", "p4"⟩
        ⟨fun _ => FsResult.content "not yaml", fun _ => Except.error "bad", []⟩
        ((getSettings [] ⟨"p1", "p2", "p3", "p4"⟩
          ⟨fun _ => FsResult.content "not yaml", fun _ => Except.error "bad", []⟩
          CacheState.fresh).state)).outcome = Except.ok none :=
  ⟨rfl, rfl, rfl⟩

/-- C5 (amended): when the merge computation fails, the error surfaces to the
first caller and no settings mapping is cached; a later call does not re-run
the computation: it performs no source reads and receives the absent
settings value the once wrapper returns after a throwing first call, rather
than a re-thrown failure. -/
theorem getSettings_failure_poisons (d : RawMapping) (cp : ConfigPaths)
    (pe : ProcessEnv) (err : SettingsError)
    (herr : (computeSettingsR d cp pe).1 = .error err) :
    (getSettings d cp pe .fresh).outcome = .error err ∧
    (getSettings d cp pe .fresh).state = .poisoned ∧
    getSettings d cp pe ((getSettings d cp pe .fresh).state)
      = ⟨.ok none, .poisoned, []⟩ := by
  have hfresh : (getSettings d cp pe .fresh).outcome = .error err ∧
      (getSettings d cp pe .fresh).state = .poisoned := by
    unfold getSettings
    rcases hc : computeSettingsR d cp pe with ⟨res, reads⟩
    rw [hc] at herr
    simp only at herr
    cases res with
    | ok m2 => simp at herr
    | error e =>
      simp only [Except.error.injEq] at herr
      subst herr
      exact ⟨rfl, rfl⟩
  refine ⟨hfresh.1, hfresh.2, ?_⟩
  rw [hfresh.2]
  rfl

/-- Witness for C5 (amended) at a concrete failing parse. -/
theorem getSettings_failure_poisons_witness :
    (getSettings [] ⟨"q1", "q2", "q3", "q4"⟩
        ⟨fun _ => FsResult.content "junk", fun _ => Except.error "tok", []⟩
        CacheState.fresh).outcome
      = Except.error (SettingsError.parseFailure "q1" "tok") :=
  (getSettings_failure_poisons [] ⟨"q1", "q2", "q3", "q4"⟩
    ⟨fun _ => FsResult.content "junk", fun _ => Except.error "tok", []⟩
    (SettingsError.parseFailure "q1" "tok") rfl).1

theorem getD_append_lt {α : Type} (l l2 : List α) (i : Nat) (x : α)
    (h : i < l.length) : (l ++ l2).getD i x = l.getD i x := by
  induction l generalizing i with
  | nil => exact absurd h (Nat.not_lt_zero i)
  | cons a t ih =>
    cases i with
    | zero => rfl
    | succ j => exact ih j (Nat.lt_of_succ_lt_succ h)

theorem getD_append_self {α : Type} (l : List α) (x d2 : α) :
    (l ++ [x]).getD l.length d2 = x := by
  induction l with
  | nil => rfl
  | cons a t ih => exact ih

theorem getD_set_ne {α : Type} (l : List α) (i j : Nat) (y x : α)
    (h : j ≠ i) : (l.set j y).getD i x = l.getD i x := by
  induction l generalizing i j with
  | nil => rfl
  | cons a t ih =>
    cases j with
    | zero =>
      cases i with
      | zero => exact absurd rfl h
      | succ i2 => rfl
    | succ j2 =>
      cases i with
      | zero => rfl
      | succ i2 => exact ih i2 j2 (fun he => h (by rw [he]))

theorem getD_set_self {α : Type} (l : List α) (j : Nat) (y x : α)
    (h : j < l.length) : (l.set j y).getD j x = y := by
  induction l generalizing j with
  | nil => exact absurd h (Nat.not_lt_zero j)
  | cons a t ih =>
    cases j with
    | zero => rfl
    | succ j2 => exact ih j2 (Nat.lt_of_succ_lt_succ h)

/-- C9: computing the resolved configuration writes only the freshly
allocated accumulator object (the object literal passed as the first
mergeObjects argument): every pre-existing object, the defaults mapping
included, is unchanged afterwards, and the accumulator holds exactly the
pure merge of the source objects. -/
theorem getSettingsAlloc_frame (st : Store) (srcIds : List Nat) (i : Nat)
    (hi : i < st.objs.length) :
    readObj (getSettingsAlloc st srcIds).1 i = readObj st i ∧
    ((∀ j ∈ srcIds, j < st.objs.length) →
      readObj (getSettingsAlloc st srcIds).1 (getSettingsAlloc st srcIds).2
        = mergeObjects (srcIds.map (readObj st))) := by
  constructor
  · unfold getSettingsAlloc mergeObjectsAt readObj
    simp only
    rw [getD_set_ne _ _ _ _ _ (Nat.ne_of_lt hi).symm]
    exact getD_append_lt _ _ _ _ hi
  · intro hj
    unfold getSettingsAlloc mergeObjectsAt readObj
    simp only
    rw [getD_set_self _ _ _ _ (by simp)]
    rw [getD_append_self st.objs [] []]
    unfold mergeObjects
    rw [List.foldl_map]
    apply List.foldl_ext
    intro b j hjm
    rw [getD_append_lt _ _ _ _ (hj j hjm)]

/-- Witness for C9 at a concrete store holding the defaults mapping. -/
theorem getSettingsAlloc_frame_witness :
    0 < (Store.mk [[("dataDirectory", "/opt/default")]]).objs.length ∧
    readObj (getSettingsAlloc ⟨[[("dataDirectory", "/opt/default")]]⟩ [0]).1 0
      = readObj ⟨[[("dataDirectory", "/opt/default")]]⟩ 0 :=
  ⟨by decide, (getSettingsAlloc_frame ⟨[[("dataDirectory", "/opt/default")]]⟩
    [0] 0 (by decide)).1⟩

end Balena
